import Mathlib

/-!
Verification development for the EvolutionaryAlgorithm.js engine.

The definitions below are a shallow embedding of the latest ("canonical")
version of the source, the strict-mode engine (the one opening with "use strict") in `src/unnamed/part_000`
(EA constructor, EAIndividual, EAPopulation with getParents,
applyGeneticOperators and replacement).  JavaScript numbers are modelled by
ℚ; `Math.random()` is modelled by an ambient tape `g : ℕ → ℚ` of draws
together with an explicit position that every stateful operation threads and
returns.  JavaScript arrays that can carry holes or `undefined` entries are
modelled as `List (Option α)` (a `none` is a hole or an `undefined` element;
the two are not distinguished because no modelled observation separates
them).  Reads at a negative index yield `none`, as `arr[-1]` yields
`undefined`.
-/

/-- The tape of `Math.random()` results: draw number `k` is `g k`. -/
abbrev RandTape : Type := ℕ → ℚ

/-- JavaScript `Math.floor` on our rational model. -/
def jsFloor (x : ℚ) : ℤ := ⌊x⌋

/-- JavaScript `Math.round` (round half toward positive infinity). -/
def jsRound (x : ℚ) : ℤ := ⌊x + 1/2⌋

/-- JavaScript `Math.max(0, x)`: clamp a number at zero. -/
def jsMax0 (x : ℚ) : ℚ := max 0 x

/-- JavaScript `x % 1` for a non-negative `x`: the fractional part. -/
def fracPart (x : ℚ) : ℚ := x - ⌊x⌋

/-- JavaScript array read `xs[i]` with an `Int` index: out-of-range
(including negative) gives `undefined`, modelled as `none`. -/
def getAt {α : Type} (xs : List α) (i : ℤ) : Option α :=
  if i < 0 then none else xs.get? i.toNat

/-- JavaScript assignment `xs[i] = v` on a possibly-holey array: writing past
the end extends the array with holes. -/
def setGrowO {α : Type} (xs : List (Option α)) (i : ℕ) (v : Option α) :
    List (Option α) :=
  if i < xs.length then xs.set i v
  else xs ++ List.replicate (i - xs.length) none ++ [v]

/-- `setGrowO` specialised to writing a present value. -/
def setGrow {α : Type} (xs : List (Option α)) (i : ℕ) (v : α) :
    List (Option α) :=
  setGrowO xs i (some v)

/-- Clamp an `Int` index for `Array.prototype.slice`/`splice`: negative
counts from the end, and the result is clamped to `[0, len]`. -/
def jsIndexClamp (len : ℕ) (i : ℤ) : ℕ :=
  if i < 0 then ((len : ℤ) + i).toNat.min len else i.toNat.min len

/-- JavaScript `xs.slice(s, e)`. -/
def sliceJS {α : Type} (xs : List α) (s e : ℤ) : List α :=
  let a := jsIndexClamp xs.length s
  let b := jsIndexClamp xs.length e
  (xs.take b).drop a

/-- JavaScript `xs.splice(start, delCnt, ...items)`: returns the removed
slice and the new array contents. -/
def spliceJS {α : Type} (xs : List α) (start delCnt : ℤ) (items : List α) :
    List α × List α :=
  let s := jsIndexClamp xs.length start
  let d := (min (max delCnt 0) ((xs.length : ℤ) - s)).toNat
  ((xs.drop s).take d, xs.take s ++ items ++ xs.drop (s + d))

/-- ASCII uppercase of one character (model of what `toUpperCase` does on
the strings this engine handles). -/
def upChar (c : Char) : Char :=
  if 97 ≤ c.toNat ∧ c.toNat ≤ 122 then Char.ofNat (c.toNat - 32) else c

/-- Model of `String.prototype.toUpperCase` for ASCII strings. -/
def jsToUpper (s : String) : String := String.mk (s.data.map upChar)

/-- JavaScript truthiness for an optional numeric option:
`(options && options.field) || dflt` — `0` and a missing field both fall
back to the default. -/
def orD (o : Option ℕ) (dflt : ℕ) : ℕ :=
  match o with
  | some v => if v = 0 then dflt else v
  | none => dflt

/-- One individual.  JavaScript object identity (what `===` and therefore
`indexOf` compare on objects) is modelled by an allocation tag `id`:
distinct allocations carry distinct tags even when their contents agree. -/
structure Individual where
  id : ℕ
  /-- the source field `variables`: the ordered key/value map -/
  vars : List (String × ℚ)
  fitness : ℚ
deriving DecidableEq

/-- The EA configuration object built by the canonical `EA` constructor. -/
structure EAConfig where
  /-- the source field `variables`: the configured variable names -/
  varNames : List String
  interval : List ℚ
  number_coding : String
  fitnessFunction : List (String × ℚ) → ℚ
  variable_individual_length : Bool := false

/-- `interval[0]`. -/
def iLo (cfg : EAConfig) : ℚ := cfg.interval.getD 0 0

/-- `interval[1]`. -/
def iHi (cfg : EAConfig) : ℚ := cfg.interval.getD 1 0

/-- The options bags passed to the various methods. -/
structure Options where
  rouletteMethod : Option String := none
  shuffleOrder : Option Bool := none
  number_of_mutated_values : Option ℕ := none
  newGenerationSize : Option ℕ := none
  generationGap : Option ℕ := none
  max_shrink_size : Option ℕ := none
  max_growth_size : Option ℕ := none
  max_swap_size : Option ℕ := none
  max_replace_size : Option ℕ := none
  max_insert_size : Option ℕ := none
  variableIndividualLength : Option Bool := none

/-- The `variables` argument of the `EA` constructor: an array of names or a
single non-array value. -/
inductive VarSpec where
  | single (s : String)
  | arr (l : List String)

/-- The canonical `EA` constructor.  `interval = none` models a non-array
argument; `number_coding = none` and `fitnessFn = none` model `undefined`
arguments.  The source line
`this.number_coding = number_coding.toUpperCase() OR-ELSE "INT"`
throws a `TypeError` when `number_coding` is `undefined`; the OR-ELSE `"INT"`
default is reachable only for the empty string. -/
def mkEA (varSpec : VarSpec) (interval : Option (List ℚ))
    (number_coding : Option String)
    (fitnessFn : Option (List (String × ℚ) → ℚ)) (opts : Option Options) :
    Except String EAConfig :=
  let vars := match varSpec with
    | VarSpec.single s => [s]
    | VarSpec.arr l => l
  match interval with
  | none => Except.error ("Interval must be array with min and max value.")
  | some iv =>
    if iv.length ≠ 2 then
      Except.error ("Interval must be array with min and max value.")
    else
      match number_coding with
      | none => Except.error
          ("TypeError: Cannot read properties of undefined")
      | some nc =>
        let coding := if jsToUpper nc = "" then ("INT") else jsToUpper nc
        match fitnessFn with
        | none => Except.error ("Fitness function must be valid function.")
        | some f =>
          Except.ok
            { varNames := vars, interval := iv, number_coding := coding,
              fitnessFunction := f,
              variable_individual_length :=
                (opts.bind (·.variableIndividualLength)).getD false }

/-- The random value generator of `initializePopulation` (and the uniform
mutation): `Math.random() * (interval[1] - interval[0]) + interval[0]`,
rounded when the coding is INT. -/
def uniformVal (cfg : EAConfig) (r : ℚ) : ℚ :=
  if cfg.number_coding = "INT" then
    ((jsRound (r * (iHi cfg - iLo cfg) + iLo cfg) : ℤ) : ℚ)
  else r * (iHi cfg - iLo cfg) + iLo cfg

/-- The extremal generator the source assigns in the `extremal_mutation`
case.  In the canonical version this assignment is dead: the switch falls
through and the uniform case unconditionally reassigns the generator. -/
def extremalVal (cfg : EAConfig) (r : ℚ) : ℚ :=
  if cfg.number_coding = "INT" then
    ((jsRound (if r > 1/2 then iHi cfg else iLo cfg) : ℤ) : ℚ)
  else if r > 1/2 then iHi cfg else iLo cfg

/-- `EAIndividual` construction: build the variables map by calling the
generator on each key in order, threading the tape position, then evaluate
the fitness function once on the result. -/
def genVarsInit (cfg : EAConfig) (g : RandTape) :
    List String → ℕ → List (String × ℚ) × ℕ
  | [], k => ([], k)
  | key :: rest, k =>
    let v := uniformVal cfg (g k)
    let (vs, kk) := genVarsInit cfg g rest (k + 1)
    ((key, v) :: vs, kk)

/-- One individual of `initializePopulation`: with variable-length
individuals the number of variables is `Math.round(Math.random() * 100)`
and the keys are `0 .. count-1`. -/
def initIndividual (cfg : EAConfig) (g : RandTape) (k idTag : ℕ) :
    Individual × ℕ :=
  if cfg.variable_individual_length then
    let cnt := (jsRound (g k * 100)).toNat
    let keys := (List.range cnt).map toString
    let (vs, kk) := genVarsInit cfg g keys (k + 1)
    ({ id := idTag, vars := vs, fitness := cfg.fitnessFunction vs }, kk)
  else
    let (vs, kk) := genVarsInit cfg g cfg.varNames k
    ({ id := idTag, vars := vs, fitness := cfg.fitnessFunction vs }, kk)

/-- `initializePopulation(method, n)`.  Every branch of the method switch
(`default:` and the `"random"` case) installs the same generator, so the method
string does not influence the result; it is kept as a parameter for
fidelity.  Returns the individuals of the population and the final tape
position. -/
def initializePopulation (cfg : EAConfig) (method : String) (n : ℕ)
    (g : RandTape) (k idBase : ℕ) : List Individual × ℕ :=
  match n with
  | 0 => ([], k)
  | m + 1 =>
    let (ind, k1) := initIndividual cfg g k idBase
    let (rest, k2) := initializePopulation cfg method m g k1 (idBase + 1)
    (ind :: rest, k2)

/-- The scan of `Array.prototype.indexOf`: return the index of the first
strictly-equal element starting from position `i`, else `-1`.  Strict
equality on objects is reference identity, i.e. tag equality in this
model. -/
def indexOfRefAux (x : Individual) : List Individual → ℕ → ℤ
  | [], _ => -1
  | y :: rest, i => if y.id = x.id then (i : ℤ) else indexOfRefAux x rest (i + 1)

/-- `indexOf` on an array of individuals. -/
def indexOfRef (inds : List Individual) (x : Individual) : ℤ :=
  indexOfRefAux x inds 0

/-- `EAPopulation.hasIndividual`. -/
def hasIndividual (inds : List Individual) (x : Individual) : Bool :=
  indexOfRef inds x ≠ -1

/-- The descending-fitness comparison induced by the sort callback
`function(a, b) { return b.fitness - a.fitness; }`. -/
def fitDesc (a b : Individual) : Prop := b.fitness ≤ a.fitness

instance : DecidableRel fitDesc := fun a b =>
  inferInstanceAs (Decidable (b.fitness ≤ a.fitness))

instance : IsTotal Individual fitDesc :=
  ⟨fun a b => le_total b.fitness a.fitness⟩

instance : IsTrans Individual fitDesc :=
  ⟨fun _ _ _ h1 h2 => le_trans h2 h1⟩

/-- The stable JavaScript `Array.prototype.sort` under the descending-fitness
comparator, modelled by a stable insertion sort. -/
def sortByFitnessDesc (xs : List Individual) : List Individual :=
  List.insertionSort fitDesc xs

/-- `getBestParents`: sort a copy descending by fitness, take the first
`n`. -/
def getBestParents (inds : List Individual) (n : ℕ) : List Individual :=
  (sortByFitnessDesc inds).take n

/-- `getRandomParents`: each of the `n` slots is
`individuals[Math.floor(Math.random() * individuals.length)]` (an
out-of-range read, possible on an empty population, gives `undefined`). -/
def getRandomParents (inds : List Individual) (n : ℕ) (g : RandTape)
    (k : ℕ) : List (Option Individual) × ℕ :=
  ((List.range n).map
    (fun i => getAt inds (jsFloor (g (k + i) * inds.length))), k + n)

/-- The deterministic pass of the remainder roulette variants: for each
individual in order, emit `Math.floor(Math.max(0, fitness))` copies. -/
def wholeCopies (inds : List Individual) : List Individual :=
  inds.flatMap (fun ind =>
    List.replicate (⌊jsMax0 ind.fitness⌋).toNat ind)

/-- The loop writing the deterministic remainder copies into the parents
array (`parents[i] = individual; i++` for each unit of the whole part),
threading the write position `i`. -/
def fillCopies (parents : List (Option Individual)) (i : ℕ) :
    List Individual → List (Option Individual) × ℕ
  | [] => (parents, i)
  | ind :: rest =>
    let w := (⌊jsMax0 ind.fitness⌋).toNat
    let parents :=
      (List.range w).foldl (fun acc t => setGrow acc (i + t) ind) parents
    fillCopies parents (i + w) rest

/-- The cumulative-weight walk of the shared selection loop:
`f = 0; j = 0; while (f < pos) f += fitnessValues[j++];` — returns the
final `j`.  Reading past the end of the array adds `undefined`, making `f`
NaN and ending the loop after that one extra increment. -/
def rouletteFind (fv : List ℚ) (pos f : ℚ) (j : ℕ) : ℕ :=
  if f < pos then
    match h : fv.get? j with
    | some w => rouletteFind fv pos (f + w) (j + 1)
    | none => j + 1
  else j
termination_by fv.length + 1 - j
decreasing_by
  have hj : j < fv.length := (List.get?_eq_some.mp h).1
  omega

/-- The shared selection loop of `getParentsFromRoulette` (used by the
with/without-replacement and the remainder variants): spin the roulette
`cnt` more times, writing `individuals[j-1]` into slot `i` each time.
Under `without_replacement` the roulette size shrinks by one and the weight
at index `j` (the off-by-one of the source: the index after the selected one) is
decremented, floored at 0.  When that index is past the end of the weights
array the source would extend it with a NaN entry; the entry is never read
again by a terminating spin, so the model leaves the array unchanged
there. -/
def spinLoop (inds : List Individual) (g : RandTape) (wo : Bool) :
    ℕ → List (Option Individual) → List ℚ → ℚ → ℕ → ℕ →
    List (Option Individual) × ℕ
  | 0, parents, _, _, _, k => (parents, k)
  | cnt + 1, parents, fv, rSize, i, k =>
    let pos := g k * rSize
    let j := rouletteFind fv pos 0 0
    let parents := setGrowO parents i (getAt inds ((j : ℤ) - 1))
    let fv' := if wo then fv.set j (jsMax0 (fv.getD j 0 - 1)) else fv
    let rSize' := if wo then rSize - 1 else rSize
    spinLoop inds g wo cnt parents fv' rSize' (i + 1) (k + 1)

/-- The in-place shuffle of the `univerzal` branch (`shuffleOrder` only):
`for a: b = a + Math.round(Math.random() * (len - a - 1)); swap keys[a]
keys[b]` — one draw per position. -/
def shuffleKeys (g : RandTape) (k : ℕ) (keys : List ℕ) : List ℕ × ℕ :=
  (List.range keys.length).foldl
    (fun acc (a : ℕ) =>
      let ks := acc.1
      let d : ℤ := (keys.length : ℤ) - (a : ℤ) - 1
      let b := a + (jsRound (g acc.2 * (d : ℚ))).toNat
      let ka := ks.getD a 0
      let kb := ks.getD b 0
      ((ks.set a kb).set b ka, acc.2 + 1))
    (keys, k)

/-- The cumulative walk of the `univerzal` branch:
`while (f < pos) f += Math.max(0, fitnessValues[keys[j++]]);` with `f` and
`j` persisting across pointers.  A `none` first component models a NaN `f`
(after a read past the end): every later comparison is false, so the walk
exits immediately. -/
def susWalk (ws : List ℚ) (pos : ℚ) : Option ℚ → ℕ → Option ℚ × ℕ
  | none, j => (none, j)
  | some f, j =>
    if f < pos then
      match h : ws.get? j with
      | some w => susWalk ws pos (some (f + w)) (j + 1)
      | none => (none, j + 1)
    else (some f, j)
termination_by _ j => ws.length + 1 - j
decreasing_by
  have hj : j < ws.length := (List.get?_eq_some.mp h).1
  omega

/-- The pointer loop of the `univerzal` branch: for each of the remaining
`cnt` pointers, walk to the pointer and emit `individuals[keys[j-1]]`,
then advance the pointer by `pointerStep`.  The source writes the values
into slots `i, i+1, ...` of a fresh dense array; the list of successive
values is returned. -/
def susLoop (inds : List Individual) (keys : List ℕ) (ws : List ℚ)
    (step : ℚ) : ℕ → ℚ → Option ℚ → ℕ → List (Option Individual)
  | 0, _, _, _ => []
  | cnt + 1, pos, f, j =>
    let r := susWalk ws pos f j
    ((getAt keys ((r.2 : ℤ) - 1)).bind (fun t => inds.get? t)) ::
      susLoop inds keys ws step cnt (pos + step) r.1 r.2

/-- `getParentsFromRoulette(individuals, method, n, shuffleOrder)` of the
canonical source.  `fitnessValues` is the clamped map
`Math.max(0, fitness)`; the default branch of the method switch coincides
with `with_replacement`/`without_replacement`.  In the `univerzal` branch
`keys = Object.keys(individuals)` is the index list `0 .. len-1`
(optionally shuffled) and the walk weights are
`Math.max(0, fitnessValues[keys[j]])`. -/
def getParentsFromRoulette (inds : List Individual) (method : String)
    (n : ℕ) (shuffleOrder : Bool) (g : RandTape) (k : ℕ) :
    List (Option Individual) × ℕ :=
  let fv0 := inds.map (fun ind => jsMax0 ind.fitness)
  let parents0 : List (Option Individual) := List.replicate n none
  if method = "remainder_with_replacement" ∨
      method = "remainder_without_replacement" then
    let res := fillCopies parents0 0 inds
    let rSize := (inds.map (fun b => fracPart (jsMax0 b.fitness))).sum
    if rSize = 0 then (res.1, k)
    else
      let fv1 := fv0.map (fun x => fracPart (jsMax0 x))
      spinLoop inds g (method = "remainder_without_replacement")
        (n - res.2) res.1 fv1 rSize res.2 k
  else if method = "univerzal" then
    let keys0 := List.range inds.length
    let keysRes :=
      if shuffleOrder then shuffleKeys g k keys0 else (keys0, k)
    let rSize := fv0.sum
    if rSize = 0 then ([], keysRes.2)
    else
      let step := rSize / n
      let start := g keysRes.2 * step
      let ws := keysRes.1.map (fun t => jsMax0 (fv0.getD t 0))
      (susLoop inds keysRes.1 ws step n start (some 0) 0, keysRes.2 + 1)
  else
    let rSize := fv0.sum
    if rSize = 0 then ([], k)
    else spinLoop inds g (method = "without_replacement") n parents0 fv0
      rSize 0 k

/-- `EAPopulation.getParents(method, n, options)`. -/
def getParents (inds : List Individual) (method : String) (n : ℕ)
    (opts : Options) (g : RandTape) (k : ℕ) :
    List (Option Individual) × ℕ :=
  if method = "best" then ((getBestParents inds n).map some, k)
  else if method = "roulette" then
    let rm := match opts.rouletteMethod with
      | some s => if s = "" then ("with_replacement") else s
      | none => "with_replacement"
    getParentsFromRoulette inds rm n (opts.shuffleOrder.getD false) g k
  else if method = "random" then getRandomParents inds n g k
  else ([], k)

/-- The per-variable generator of the uniform/extremal branch of the
canonical `applyGeneticOperators`.  Note the source draws the `n` mutation
positions afresh inside `generateFunction`, i.e. once per variable of the
child, not once per parent; the value generator `f` is consumed only when
the position of the variable is among the drawn ones. -/
def mutateVarsAux (cfg : EAConfig) (nMut len : ℕ)
    (parentVars : List (String × ℚ)) (g : RandTape) :
    List (ℕ × String) → ℕ → List (String × ℚ) × ℕ
  | [], k => ([], k)
  | (idx, key) :: rest, k =>
    let posList := (List.range nMut).map (fun j => jsFloor (g (k + j) * len))
    let k1 := k + nMut
    let hit := posList.any (fun z => decide (z = (idx : ℤ)))
    let v := if hit then uniformVal cfg (g k1)
             else ((parentVars.lookup key).getD 0)
    let k2 := if hit then k1 + 1 else k1
    let res := mutateVarsAux cfg nMut len parentVars g rest k2
    ((key, v) :: res.1, res.2)

/-- One child of the uniform/extremal mutation branch: the child keys are
`Object.keys(parent.variables)`; a non-mutated key copies the value of the
parent. -/
def uniformMutChild (cfg : EAConfig) (nMut : ℕ) (parent : Individual)
    (g : RandTape) (k idTag : ℕ) : Individual × ℕ :=
  let keys := parent.vars.map Prod.fst
  let res := mutateVarsAux cfg nMut keys.length parent.vars g keys.enum k
  ({ id := idTag, vars := res.1, fitness := cfg.fitnessFunction res.1 },
   res.2)

/-- Re-key a positional value array as the fresh index keys
`0 .. len-1` (the variable-length operators rebuild the keys this way). -/
def rekey (data : List ℚ) : List (String × ℚ) :=
  (data.enum).map (fun p => (toString p.1, p.2))

/-- One child of `shrink_mutation`: remove a random slice from the value
sequence of the parent and re-key. -/
def shrinkChild (cfg : EAConfig) (maxShrink : ℕ) (parent : Individual)
    (g : RandTape) (k idTag : ℕ) : Individual × ℕ :=
  let len := parent.vars.length
  let startPos := jsRound (g k * len)
  let shrinkSize := jsRound (g (k + 1) * maxShrink)
  let data := (spliceJS (parent.vars.map Prod.snd) startPos shrinkSize []).2
  let vs := rekey data
  ({ id := idTag, vars := vs, fitness := cfg.fitnessFunction vs }, k + 2)

/-- One child of `growth_mutation`: splice freshly generated values (always
`Math.round`ed, whatever the coding) into the parent value sequence at a
random position and re-key. -/
def growthChild (cfg : EAConfig) (maxGrowth : ℕ) (parent : Individual)
    (g : RandTape) (k idTag : ℕ) : Individual × ℕ :=
  let len := parent.vars.length
  let pos := jsRound (g k * len)
  let growthSize := (jsRound (g (k + 1) * maxGrowth)).toNat
  let fresh := (List.range growthSize).map (fun t =>
    ((jsRound (g (k + 2 + t) * (iHi cfg - iLo cfg) + iLo cfg) : ℤ) : ℚ))
  let data := (spliceJS (parent.vars.map Prod.snd) pos 0 fresh).2
  let vs := rekey data
  ({ id := idTag, vars := vs, fitness := cfg.fitnessFunction vs },
   k + 2 + growthSize)

/-- Array lookup by an object key that is expected to be a numeric string
(the variable-length operators read `data[variable]`); a non-numeric or
out-of-range key yields `undefined`, modelled as 0 here — no statement in
this development touches that corner. -/
def arrGetByKey (data : List ℚ) (key : String) : ℚ :=
  ((key.toNat?).bind (fun i => data.get? i)).getD 0

/-- One child of `swap_mutation`: exchange two random same-size blocks of
the value sequence via two splices; the keys are the unchanged keys
of the parent. -/
def swapChild (cfg : EAConfig) (maxSwap : ℕ) (parent : Individual)
    (g : RandTape) (k idTag : ℕ) : Individual × ℕ :=
  let keys := parent.vars.map Prod.fst
  let len := parent.vars.length
  let swapSize := jsRound (g k * maxSwap)
  let maxIndex : ℤ := (len : ℤ) - swapSize
  let pos1 := jsRound (g (k + 1) * (maxIndex : ℚ))
  let pos2 := min (jsRound (g (k + 2) * ((maxIndex - pos1 : ℤ) : ℚ)) + pos1)
    maxIndex
  let data0 := parent.vars.map Prod.snd
  let data2 := sliceJS data0 pos2 (pos2 + swapSize)
  let sp1 := spliceJS data0 pos1 swapSize data2
  let sp2 := spliceJS sp1.2 pos2 swapSize sp1.1
  let vs := keys.map (fun key => (key, arrGetByKey sp2.2 key))
  ({ id := idTag, vars := vs, fitness := cfg.fitnessFunction vs }, k + 3)

/-- One child of `replace_mutation`: replace a random slice of the value
sequence by freshly generated values (always rounded) and re-key. -/
def replaceChild (cfg : EAConfig) (maxReplace maxInsert : ℕ)
    (parent : Individual) (g : RandTape) (k idTag : ℕ) : Individual × ℕ :=
  let len := parent.vars.length
  let startPos := jsRound (g k * len)
  let replaceSize := jsRound (g (k + 1) * maxReplace)
  let insertSize := (jsRound (g (k + 2) * maxInsert)).toNat
  let fresh := (List.range insertSize).map (fun t =>
    ((jsRound (g (k + 3 + t) * (iHi cfg - iLo cfg) + iLo cfg) : ℤ) : ℚ))
  let data := (spliceJS (parent.vars.map Prod.snd) startPos replaceSize
    fresh).2
  let vs := rekey data
  ({ id := idTag, vars := vs, fitness := cfg.fitnessFunction vs },
   k + 3 + insertSize)

/-- The children loop: one child per parent, in order, threading the tape
position and handing out fresh allocation tags. -/
def mapChildren (mk : Individual → ℕ → ℕ → Individual × ℕ) :
    List Individual → ℕ → ℕ → List Individual × ℕ
  | [], k, _ => ([], k)
  | p :: rest, k, idTag =>
    let c := mk p k idTag
    let res := mapChildren mk rest c.2 (idTag + 1)
    (c.1 :: res.1, res.2)

/-- `EAPopulation.applyGeneticOperators(parents, method, options)` of the
canonical source.  An empty `parents` returns an empty array (the older
engine versions threw here; the canonical one does not, and no branch of
this function throws — the `Except` result records that).  The
`extremal_mutation` case assigns its bound-picking generator and falls
through, but the uniform case then reassigns the generator
unconditionally (`f = ...`, with no `f || ` guard), so `extremal_mutation`,
`uniform_mutation` and every unrecognized method all mutate with uniform
draws. -/
def applyGeneticOperators (cfg : EAConfig) (parents : List Individual)
    (method : String) (opts : Options) (g : RandTape) (k idBase : ℕ) :
    Except String (List Individual × ℕ) :=
  match parents with
  | [] => Except.ok ([], k)
  | _ =>
    if method = "shrink_mutation" then
      Except.ok (mapChildren
        (fun p => shrinkChild cfg (orD opts.max_shrink_size 5) p g)
        parents k idBase)
    else if method = "growth_mutation" then
      Except.ok (mapChildren
        (fun p => growthChild cfg (orD opts.max_growth_size 5) p g)
        parents k idBase)
    else if method = "swap_mutation" then
      Except.ok (mapChildren
        (fun p => swapChild cfg (orD opts.max_swap_size 5) p g)
        parents k idBase)
    else if method = "replace_mutation" then
      Except.ok (mapChildren
        (fun p => replaceChild cfg (orD opts.max_replace_size 5)
          (orD opts.max_insert_size 5) p g)
        parents k idBase)
    else
      Except.ok (mapChildren
        (fun p => uniformMutChild cfg (orD opts.number_of_mutated_values 1)
          p g)
        parents k idBase)

/-- `(options && options.newGenerationSize) || individuals_length`. -/
def newGenSize (opts : Options) (len : ℕ) : ℕ :=
  orD opts.newGenerationSize len

/-- `EAPopulation.replacement(parents, children, method, options)`.
The source mutates: it assigns the `individuals` of the population, and the
`comma_strategy` and `separate_competition` branches sort the
caller-supplied arrays in place; the result triple is the final state
`(population.individuals, parents, children)` of those three arrays. -/
def replacement (popInds parents children : List Individual)
    (method : String) (opts : Options) :
    List Individual × List Individual × List Individual :=
  if method = "comma_strategy" then
    let size := newGenSize opts popInds.length
    let ch := sortByFitnessDesc children
    (ch.take size, parents, ch)
  else if method = "separate_competition" then
    let gap := opts.generationGap.getD 0
    let numParents : ℤ := (popInds.length : ℤ) - gap
    let pa := sortByFitnessDesc parents
    let keptParents := sliceJS pa 0 numParents
    let ch := sortByFitnessDesc children
    (keptParents ++ ch.take gap, pa, ch)
  else if method = "plus_strategy" then
    let size := newGenSize opts popInds.length
    let plus := sortByFitnessDesc (parents ++ children)
    (plus.take size, parents, children)
  else
    (children, parents, children)

/-!  Spec-side model of stochastic universal sampling, for the refinement
statements about the `univerzal` roulette branch. -/

/-- Cumulative clamped weight of the first `m` individuals. -/
def cum (ws : List ℚ) (m : ℕ) : ℚ := (ws.take m).sum

/-- Modelled from the spec: the individual whose cumulative-weight interval
contains the pointer `p`.  The intervals are taken left-open/right-closed,
`(cum i, cum (i+1)]`, which makes the owner unique for every
`0 < p ≤ total` even in the presence of zero-weight individuals. -/
def susOwner (ws : List ℚ) (p : ℚ) : Option ℕ :=
  (List.range ws.length).find?
    (fun i => decide (cum ws i < p) && decide (p ≤ cum ws (i + 1)))

/-- Modelled from the spec: stochastic universal sampling over the clamped
fitness weights — `pointerStep = rouletteSize / n`, a single uniform start
offset `r * pointerStep`, and the `n` equally spaced pointers each mapped
through `susOwner`. -/
def susSpecSelect (inds : List Individual) (n : ℕ) (r : ℚ) :
    List (Option Individual) :=
  let ws := inds.map (fun x => jsMax0 x.fitness)
  let step := ws.sum / n
  (List.range n).map (fun (t : ℕ) =>
    (susOwner ws (r * step + (t : ℚ) * step)).bind (fun i => inds.get? i))

/-!  Fixtures used by the concrete counterexample and witness theorems. -/

/-- A sum-of-values fitness function used by the fixtures. -/
def sumFitness : List (String × ℚ) → ℚ := fun vs => (vs.map Prod.snd).sum

/-- REAL-coded configuration over the interval `[0, 10]` with one
variable. -/
def cfgReal : EAConfig :=
  { varNames := ["x"], interval := [0, 10], number_coding := "REAL",
    fitnessFunction := sumFitness }

/-- A parent whose single variable `x` holds 5. -/
def parentX5 : Individual := { id := 0, vars := [("x", 5)], fitness := 5 }

/-- A parent with two variables holding values outside the interval
`[0, 10]`, so any uniform replacement would visibly change them. -/
def parentAB : Individual :=
  { id := 0, vars := [("a", 20), ("b", 30)], fitness := 50 }

/-- Tape whose first draw is 0 and all later draws are `7/20`. -/
def tapeC2 : RandTape := fun m => if m = 0 then 0 else 7/20

/-- Tape whose first draw is `1/2` and all later draws are 0. -/
def tapeC5 : RandTape := fun m => if m = 0 then 1/2 else 0

/-- Constant tape `9/10`. -/
def tape910 : RandTape := fun _ => 9/10

/-- Constant tape `1/2`. -/
def tapeHalf : RandTape := fun _ => 1/2

/-- Constant tape 0. -/
def tapeZero : RandTape := fun _ => 0

/-- Two content-equal individuals of fitness 1 with distinct tags. -/
def indA : Individual := { id := 0, vars := [], fitness := 1 }

/-- See `indA`. -/
def indB : Individual := { id := 1, vars := [], fitness := 1 }

/-- An individual of integer fitness 3. -/
def indFit3 : Individual := { id := 7, vars := [], fitness := 3 }

/-- Individuals of fitness 1, 2, 3 used by the replacement fixtures. -/
def indQ1 : Individual := { id := 11, vars := [], fitness := 1 }

/-- See `indQ1`. -/
def indQ2 : Individual := { id := 12, vars := [], fitness := 2 }

/-- See `indQ1`. -/
def indQ3 : Individual := { id := 13, vars := [], fitness := 3 }

/-- INT-coded configuration whose interval has a fractional lower bound. -/
def cfgIntFrac : EAConfig :=
  { varNames := ["x"], interval := [2/5, 2], number_coding := "INT",
    fitnessFunction := sumFitness }

/-- INT-coded configuration over the integer interval `[0, 2]`. -/
def cfgInt02 : EAConfig :=
  { varNames := ["x", "y"], interval := [0, 2], number_coding := "INT",
    fitnessFunction := sumFitness }

/-- Claim C1, counterexample: on the canonical engine, calling
`applyGeneticOperators` with an empty `parents` array returns normally with
an empty children array — it does not raise an `ArgumentError` (the claimed
raise happens only in the older engine versions). -/
theorem applyGeneticOperators_empty_returns_ok :
    applyGeneticOperators cfgReal [] ("uniform_mutation") {} tapeZero 0 0 =
      Except.ok ([], 0) := rfl

/-- Claim C1, amended: for every configuration, method, options, tape and
tape position, `applyGeneticOperators` on an empty `parents` sequence
returns successfully with an empty children sequence, consuming no
randomness. -/
theorem applyGeneticOperators_empty_parents (cfg : EAConfig)
    (method : String) (opts : Options) (g : RandTape) (k idBase : ℕ) :
    applyGeneticOperators cfg [] method opts g k idBase =
      Except.ok ([], k) := rfl

/-- Claim C2: evaluating the code at the failing input — REAL coding over
`[0, 10]`, a single-variable parent, method `extremal_mutation`, tape
`(0, 7/20, ...)` — produces a child whose mutated value is `7/2`, an
interior point of the interval, not one of the two bounds 0 and 10.  The
extremal generator is dead code: the switch falls through and the uniform
case reassigns it. -/
theorem extremal_mutation_interior_value :
    (applyGeneticOperators cfgReal [parentX5] ("extremal_mutation") {}
        tapeC2 0 10).toOption.map (fun r => (r.1.map Individual.vars, r.2)) =
      some ([[("x", 7/2)]], 2) ∧
    ¬((7/2 : ℚ) = 0 ∨ (7/2 : ℚ) = 10) := by
  refine ⟨by with_unfolding_all rfl, by norm_num⟩

/-- Claim C5: evaluating the code at the failing input — a parent with two
variables (values 20 and 30, both outside the interval `[0, 10]`),
`uniform_mutation` with the default `number_of_mutated_values = 1`, and the
tape `(1/2, 0, ...)` — produces a child identical to the parent: the
position list is redrawn inside the per-variable generator, the draw for
variable `a` picks position 1 and the draw for variable `b` picks position
0, so no variable at all is mutated even though exactly one should be. -/
theorem uniform_mutation_no_position_mutated :
    (applyGeneticOperators cfgReal [parentAB] ("uniform_mutation") {}
        tapeC5 0 99).toOption.map (fun r => (r.1.map Individual.vars, r.2)) =
      some ([[("a", 20), ("b", 30)]], 2) := by with_unfolding_all rfl

/-- Claim C9: evaluating the code at the failing input — the `EA`
constructor with the encoding argument omitted (`undefined`) throws a
`TypeError` (the `toUpperCase()` call precedes the `OR-ELSE "INT"`
default), while a lowercase `"int"` is accepted case-insensitively and
stored as `"INT"`. -/
theorem mkEA_omitted_coding_throws :
    (mkEA (VarSpec.arr ["x"]) (some [0, 1]) none (some sumFitness)
        none).toOption.isNone = true ∧
    (mkEA (VarSpec.arr ["x"]) (some [0, 1]) (some ("int"))
        (some sumFitness) none).toOption.map (fun c => c.number_coding) =
      some ("INT") := by
  refine ⟨by decide, by decide⟩

/-- Claim C10: `hasIndividual` reports membership exactly by reference
identity (tag equality in this model): it is true iff some element of the
stored individuals array is the very same object, so a distinct individual
with identical variable values and fitness is not reported as a member. -/
theorem hasIndividual_iff_ref (inds : List Individual) (x : Individual) :
    hasIndividual inds x = true ↔ ∃ y ∈ inds, y.id = x.id := by
  have aux : ∀ (l : List Individual) (i : ℕ),
      indexOfRefAux x l i ≠ -1 ↔ ∃ y ∈ l, y.id = x.id := by
    intro l
    induction l with
    | nil => intro i; simp [indexOfRefAux]
    | cons y rest ih =>
      intro i
      by_cases h : y.id = x.id
      · simp only [indexOfRefAux, if_pos h]
        constructor
        · intro _
          exact ⟨y, List.mem_cons_self y rest, h⟩
        · intro _
          omega
      · simp only [indexOfRefAux, if_neg h]
        rw [ih (i + 1)]
        constructor
        · rintro ⟨z, hz, he⟩
          exact ⟨z, List.mem_cons_of_mem y hz, he⟩
        · rintro ⟨z, hz, he⟩
          rcases List.mem_cons.mp hz with rfl | hz2
          · exact absurd he h
          · exact ⟨z, hz2, he⟩
  unfold hasIndividual indexOfRef
  rw [decide_eq_true_iff]
  exact aux inds 0

/-- Claim C6, counterexample: `replacement` with `comma_strategy` sorts the
caller-supplied `children` array in place — after the call the children
array reads `[fitness 2, fitness 1]`, not the `[fitness 1, fitness 2]`
that was passed in, so the inputs are not left as received. -/
theorem replacement_comma_mutates_children :
    (replacement [] [] [indQ1, indQ2] ("comma_strategy") {}).2.2 =
      [indQ2, indQ1] ∧
    [indQ2, indQ1] ≠ [indQ1, indQ2] := by
  refine ⟨by with_unfolding_all rfl, by decide⟩

/-- A JavaScript slice is a sub-part of the array it is taken from. -/
theorem sliceJS_subset {α : Type} (xs : List α) (s e : ℤ) :
    sliceJS xs s e ⊆ xs := by
  intro y hy
  simp only [sliceJS] at hy
  exact List.take_subset _ _ (List.drop_subset _ _ hy)

/-- Claim C6, amended: selection and variation return new data and only
`replacement` writes the stored collection of the Population, replacing it
whole; `generational` and `plus_strategy` leave the caller-supplied
`parents`/`children` arrays exactly as received, but `comma_strategy` and
`separate_competition` sort them in place (the returned final arrays are
permutations of the inputs), and every new population element comes from
the input `parents`/`children`. -/
theorem replacement_frame (popInds parents children : List Individual)
    (opts : Options) :
    (replacement popInds parents children ("generational") opts =
        (children, parents, children)) ∧
    ((replacement popInds parents children ("plus_strategy") opts).2 =
        (parents, children) ∧
      ∀ x ∈ (replacement popInds parents children ("plus_strategy")
        opts).1, x ∈ parents ++ children) ∧
    ((replacement popInds parents children ("comma_strategy") opts).2.1 =
        parents ∧
      ((replacement popInds parents children ("comma_strategy")
        opts).2.2).Perm children ∧
      ∀ x ∈ (replacement popInds parents children ("comma_strategy")
        opts).1, x ∈ children) ∧
    (((replacement popInds parents children ("separate_competition")
        opts).2.1).Perm parents ∧
      ((replacement popInds parents children ("separate_competition")
        opts).2.2).Perm children ∧
      ∀ x ∈ (replacement popInds parents children ("separate_competition")
        opts).1, x ∈ parents ++ children) := by
  refine ⟨rfl, ⟨rfl, ?_⟩, ⟨rfl, ?_, ?_⟩, ?_, ?_, ?_⟩
  · intro x hx
    exact (List.perm_insertionSort fitDesc (parents ++ children)).subset
      (List.take_subset _ _ hx)
  · exact List.perm_insertionSort fitDesc children
  · intro x hx
    exact (List.perm_insertionSort fitDesc children).subset
      (List.take_subset _ _ hx)
  · exact List.perm_insertionSort fitDesc parents
  · exact List.perm_insertionSort fitDesc children
  · intro x hx
    rcases List.mem_append.mp hx with hx1 | hx2
    · exact List.mem_append.mpr (Or.inl
        ((List.perm_insertionSort fitDesc parents).subset
          (sliceJS_subset _ _ _ hx1)))
    · exact List.mem_append.mpr (Or.inr
        ((List.perm_insertionSort fitDesc children).subset
          (List.take_subset _ _ hx2)))

/-- Claim C8, counterexample: on a population of three individuals, calling
`replacement` with `plus_strategy`, one parent and one child leaves a new
generation of 2 individuals, not `newGenerationSize = 3` (the default, the
population size before the call): `slice(0, size)` cannot pad. -/
theorem plus_strategy_short_result :
    (replacement [indQ1, indQ2, indQ3] [indQ1] [indQ2] ("plus_strategy")
        {}).1.length = 2 ∧
    (2 : ℕ) ≠ 3 ∧ ([indQ1, indQ2, indQ3] : List Individual).length = 3 := by
  refine ⟨by with_unfolding_all rfl, by decide, rfl⟩

/-- Claim C8, amended: the `plus_strategy` replacement sets the population
to a sequence of size `min newGenerationSize (|parents| + |children|)`
(`newGenerationSize` defaulting to the population size before the call),
drawn from the union of parents and children and sorted in non-increasing
fitness order. -/
theorem plus_strategy_spec (popInds parents children : List Individual)
    (opts : Options) :
    (replacement popInds parents children ("plus_strategy") opts).1.length =
      min (newGenSize opts popInds.length)
        (parents.length + children.length) ∧
    (∀ x ∈ (replacement popInds parents children ("plus_strategy")
      opts).1, x ∈ parents ++ children) ∧
    List.Sorted fitDesc
      (replacement popInds parents children ("plus_strategy") opts).1 := by
  refine ⟨?_, ?_, ?_⟩
  · show ((sortByFitnessDesc (parents ++ children)).take
      (newGenSize opts popInds.length)).length = _
    unfold sortByFitnessDesc
    rw [List.length_take, List.length_insertionSort, List.length_append]
  · intro x hx
    exact (List.perm_insertionSort fitDesc (parents ++ children)).subset
      (List.take_subset _ _ hx)
  · exact List.Pairwise.sublist (List.take_sublist _ _)
      (List.sorted_insertionSort fitDesc (parents ++ children))

/-- Claim C4, counterexample: with one individual of integer fitness 3,
`getParents("roulette", 1)` under `remainder_with_replacement` returns
three deterministic copies — more than the requested `n = 1` even though
the total non-negative fitness is positive, refuting both "exactly n" and
"never more than n". -/
theorem remainder_roulette_overfull :
    (getParents [indFit3] ("roulette") 1
        { rouletteMethod := some ("remainder_with_replacement") } tapeZero
        0).1 = [some indFit3, some indFit3, some indFit3] ∧
    ([some indFit3, some indFit3, some indFit3] :
      List (Option Individual)).length ≠ 1 ∧
    (0 : ℚ) < ([indFit3].map (fun b => jsMax0 b.fitness)).sum := by
  refine ⟨by with_unfolding_all rfl, by decide, by
    show (0:ℚ) < [jsMax0 indFit3.fitness].sum
    with_unfolding_all norm_num [indFit3, jsMax0]⟩

/-- Claim C3, counterexample: the code only recognizes the spelling
`univerzal`; with `options.rouletteMethod = "universal"` (the spelling of
the spec) the call falls into the default `with_replacement` branch: on two
individuals of fitness 1 with the constant tape `9/10` and `n = 2` it
consumes two random draws — not the single draw stochastic universal
sampling requires — and returns both pointers mapped to the second
individual, while stochastic universal sampling would return the first and
the second. -/
theorem universal_spelling_not_sus :
    (getParents [indA, indB] ("roulette") 2
        { rouletteMethod := some ("universal") } tape910 0).2 = 2 ∧
    (getParents [indA, indB] ("roulette") 2
        { rouletteMethod := some ("universal") } tape910 0).1 ≠
      susSpecSelect [indA, indB] 2 (9/10) := by
  constructor
  · with_unfolding_all rfl
  · intro h
    have h1 : (getParents [indA, indB] ("roulette") 2
        { rouletteMethod := some ("universal") } tape910 0).1 =
        [some indB, some indB] := by with_unfolding_all rfl
    have h2 : susSpecSelect [indA, indB] 2 (9/10) =
        [some indA, some indB] := by with_unfolding_all rfl
    rw [h1, h2] at h
    exact absurd h (by decide)

/-- Claim C7, counterexample: with INT coding over the interval
`[2/5, 2]` (a valid two-bound interval with `min ≤ max`) and the constant
tape 0, the generated value is `Math.round(2/5) = 0`, which lies below
`interval.min = 2/5` — rounding can leave the configured interval when a
bound is fractional. -/
theorem initializePopulation_int_out_of_interval :
    cfgIntFrac.interval = [2/5, 2] ∧
    ((initializePopulation cfgIntFrac ("random") 1 tapeZero 0 0).1.map
      Individual.vars) = [[("x", 0)]] ∧
    ¬((2/5 : ℚ) ≤ 0) := by
  refine ⟨rfl, by with_unfolding_all rfl, by norm_num⟩

/-- The generated value stays in the interval: for a draw `r ∈ [0, 1)` and
`lo ≤ hi`, `uniformVal` lands in `[lo, hi]`, provided (for INT coding) both
bounds are integers; with INT coding the value is moreover an integer. -/
theorem uniformVal_mem (cfg : EAConfig) (lo hi : ℚ)
    (hI : cfg.interval = [lo, hi]) (hlh : lo ≤ hi)
    (hint : cfg.number_coding = "INT" →
      (∃ a : ℤ, lo = a) ∧ ∃ b : ℤ, hi = b)
    (r : ℚ) (hr0 : 0 ≤ r) (hr1 : r < 1) :
    lo ≤ uniformVal cfg r ∧ uniformVal cfg r ≤ hi ∧
      (cfg.number_coding = "INT" → ∃ m : ℤ, uniformVal cfg r = m) := by
  have hLo : iLo cfg = lo := by simp [iLo, hI]
  have hHi : iHi cfg = hi := by simp [iHi, hI]
  have hraw0 : lo ≤ r * (hi - lo) + lo := by
    have := mul_nonneg hr0 (sub_nonneg.mpr hlh)
    linarith
  have hraw1 : r * (hi - lo) + lo ≤ hi := by
    have := mul_le_mul_of_nonneg_right (le_of_lt hr1)
      (sub_nonneg.mpr hlh)
    rw [one_mul] at this
    linarith
  unfold uniformVal
  rw [hLo, hHi]
  by_cases hc : cfg.number_coding = "INT"
  · obtain ⟨⟨a, ha⟩, ⟨b, hb⟩⟩ := hint hc
    rw [if_pos hc]
    subst ha hb
    refine ⟨?_, ?_, fun _ => ⟨_, rfl⟩⟩
    · rw [jsRound]
      have : a ≤ ⌊r * ((b : ℚ) - a) + a + 1/2⌋ :=
        Int.le_floor.mpr (by linarith)
      exact_mod_cast this
    · rw [jsRound]
      have : ⌊r * ((b : ℚ) - a) + a + 1/2⌋ < b + 1 :=
        Int.floor_lt.mpr (by push_cast; linarith)
      have hble : ⌊r * ((b : ℚ) - a) + a + 1/2⌋ ≤ b := by omega
      exact_mod_cast hble
  · rw [if_neg hc]
    exact ⟨hraw0, hraw1, fun h => absurd h hc⟩

/-- Every variable value produced by `genVarsInit` satisfies a predicate
that holds of every generated value on the tape. -/
theorem genVarsInit_vals (cfg : EAConfig) (g : RandTape) (Q : ℚ → Prop)
    (hval : ∀ m, Q (uniformVal cfg (g m))) :
    ∀ (keys : List String) (k : ℕ),
      ∀ kv ∈ (genVarsInit cfg g keys k).1, Q kv.2 := by
  intro keys
  induction keys with
  | nil => intro k kv hkv; simp [genVarsInit] at hkv
  | cons key rest ih =>
    intro k kv hkv
    simp only [genVarsInit] at hkv
    rcases List.mem_cons.mp hkv with rfl | h2
    · exact hval k
    · exact ih (k + 1) kv h2

/-- Every variable value of `initIndividual` satisfies a predicate that
holds of every generated value on the tape. -/
theorem initIndividual_vals (cfg : EAConfig) (g : RandTape) (Q : ℚ → Prop)
    (hval : ∀ m, Q (uniformVal cfg (g m))) (k idTag : ℕ) :
    ∀ kv ∈ (initIndividual cfg g k idTag).1.vars, Q kv.2 := by
  unfold initIndividual
  by_cases hv : cfg.variable_individual_length
  · rw [if_pos hv]
    exact genVarsInit_vals cfg g Q hval _ _
  · rw [if_neg hv]
    exact genVarsInit_vals cfg g Q hval _ _

/-- Claim C7, amended: for every configuration with a two-bound interval
`[lo, hi]`, `lo ≤ hi`, draws in `[0, 1)` and — when the coding is INT —
integer bounds, `initializePopulation` returns exactly `n` individuals and
every generated variable value lies in `[lo, hi]` (and is an integer under
INT coding).  Without the integrality proviso the rounding can leave the
interval, as the counterexample shows. -/
theorem initializePopulation_count_and_bounds (cfg : EAConfig) (lo hi : ℚ)
    (method : String) (n : ℕ) (g : RandTape) (k idBase : ℕ)
    (hI : cfg.interval = [lo, hi]) (hlh : lo ≤ hi)
    (hg : ∀ m, 0 ≤ g m ∧ g m < 1)
    (hint : cfg.number_coding = "INT" →
      (∃ a : ℤ, lo = a) ∧ ∃ b : ℤ, hi = b) :
    (initializePopulation cfg method n g k idBase).1.length = n ∧
    ∀ ind ∈ (initializePopulation cfg method n g k idBase).1,
      ∀ kv ∈ ind.vars, lo ≤ kv.2 ∧ kv.2 ≤ hi ∧
        (cfg.number_coding = "INT" → ∃ m : ℤ, kv.2 = m) := by
  have hval : ∀ m, lo ≤ uniformVal cfg (g m) ∧ uniformVal cfg (g m) ≤ hi ∧
      (cfg.number_coding = "INT" → ∃ z : ℤ, uniformVal cfg (g m) = z) :=
    fun m => uniformVal_mem cfg lo hi hI hlh hint (g m) (hg m).1 (hg m).2
  induction n generalizing k idBase with
  | zero => exact ⟨rfl, by intro ind h; simp [initializePopulation] at h⟩
  | succ m ih =>
    constructor
    · show ((initIndividual cfg g k idBase).1 ::
        (initializePopulation cfg method m g
          (initIndividual cfg g k idBase).2 (idBase + 1)).1).length = m + 1
      rw [List.length_cons, (ih _ _).1]
    · intro ind hind
      have hind2 : ind = (initIndividual cfg g k idBase).1 ∨
          ind ∈ (initializePopulation cfg method m g
            (initIndividual cfg g k idBase).2 (idBase + 1)).1 :=
        List.mem_cons.mp hind
      rcases hind2 with rfl | h2
      · exact initIndividual_vals cfg g
          (fun v => lo ≤ v ∧ v ≤ hi ∧
            (cfg.number_coding = "INT" → ∃ m : ℤ, v = m)) hval k idBase
      · exact (ih _ _).2 ind h2

/-- Claim C7, witness: the amended theorem applied to the INT configuration
over `[0, 2]`, `n = 2`, and the constant tape `1/2`. -/
theorem initializePopulation_count_and_bounds_witness :
    ((0 : ℚ) ≤ 2 ∧ ∀ m : ℕ, 0 ≤ tapeHalf m ∧ tapeHalf m < 1) ∧
    (initializePopulation cfgInt02 ("random") 2 tapeHalf 0 0).1.length = 2 ∧
    ∀ ind ∈ (initializePopulation cfgInt02 ("random") 2 tapeHalf 0 0).1,
      ∀ kv ∈ ind.vars, (0 : ℚ) ≤ kv.2 ∧ kv.2 ≤ 2 ∧
        (cfgInt02.number_coding = "INT" → ∃ m : ℤ, kv.2 = m) := by
  refine ⟨⟨by norm_num, fun m => ⟨by norm_num [tapeHalf],
    by norm_num [tapeHalf]⟩⟩, ?_⟩
  exact initializePopulation_count_and_bounds cfgInt02 0 2 ("random") 2
    tapeHalf 0 0 rfl (by norm_num)
    (fun m => ⟨by norm_num [tapeHalf], by norm_num [tapeHalf]⟩)
    (fun _ => ⟨⟨0, by norm_num⟩, ⟨2, by norm_num⟩⟩)

/-- `cum` at `j + 1` adds the `j`-th weight (0 past the end). -/
theorem cum_succ_getD (fv : List ℚ) (j : ℕ) :
    cum fv (j + 1) = cum fv j + fv.getD j 0 := by
  by_cases h : j < fv.length
  · rw [cum, cum, List.take_succ, List.sum_append,
      List.getD_eq_getElem?_getD, List.getElem?_eq_getElem h]
    simp
  · rw [cum, cum, List.take_of_length_le (le_of_not_lt h),
      List.take_of_length_le (by omega : fv.length ≤ j + 1),
      List.getD_eq_getElem?_getD]
    have : fv[j]? = none := List.getElem?_eq_none (le_of_not_lt h)
    rw [this]
    simp

/-- `cum` is monotone over nonnegative weights. -/
theorem cum_mono (fv : List ℚ) (hfv : ∀ x ∈ fv, 0 ≤ x) :
    Monotone (cum fv) := by
  apply monotone_nat_of_le_succ
  intro j
  rw [cum_succ_getD]
  have : 0 ≤ fv.getD j 0 := by
    rw [List.getD_eq_getElem?_getD]
    cases h : fv[j]? with
    | none => simp
    | some v =>
      have hv : v ∈ fv := by
        obtain ⟨hlt, he⟩ := List.getElem?_eq_some.mp h
        exact he ▸ List.getElem_mem hlt
      simpa using hfv v hv
  linarith

/-- `cum` over the whole list is the sum. -/
theorem cum_length (fv : List ℚ) : cum fv fv.length = fv.sum := by
  rw [cum, List.take_of_length_le (le_refl _)]

/-- The cumulative walk `rouletteFind` stays within the weights array and
makes progress: starting from a consistent state it returns an index in
`(j, fv.length]` whenever the walk has to move (`f < pos`), provided the
position does not exceed the total weight. -/
theorem rouletteFind_bounds (fv : List ℚ) (pos : ℚ)
    (hpos : pos ≤ fv.sum) :
    ∀ (d j : ℕ) (f : ℚ), fv.length + 1 - j ≤ d → f = cum fv j →
      j ≤ fv.length →
      j ≤ rouletteFind fv pos f j ∧ rouletteFind fv pos f j ≤ fv.length ∧
        (f < pos → j < rouletteFind fv pos f j) := by
  intro d
  induction d with
  | zero => intro j f hd; omega
  | succ d ih =>
    intro j f hd hf hj
    by_cases hlt : f < pos
    · have hjlen : j < fv.length := by
        rcases Nat.lt_or_ge j fv.length with h | h
        · exact h
        · exfalso
          have hjeq : j = fv.length := le_antisymm hj h
          rw [hf, hjeq, cum_length] at hlt
          linarith
      have hget : fv.get? j = some fv[j] := by
        rw [List.get?_eq_getElem?, List.getElem?_eq_getElem hjlen]
      have hunf : rouletteFind fv pos f j =
          rouletteFind fv pos (f + fv[j]) (j + 1) := by
        conv_lhs => rw [rouletteFind]
        rw [if_pos hlt, hget]
      have hfd : fv.getD j 0 = fv[j] := by
        rw [List.getD_eq_getElem?_getD, List.getElem?_eq_getElem hjlen]
        rfl
      have hnext : f + fv[j] = cum fv (j + 1) := by
        rw [cum_succ_getD, hfd, hf]
      have := ih (j + 1) (f + fv[j]) (by omega) hnext (by omega)
      rw [hunf]
      exact ⟨by omega, this.2.1, fun _ => by omega⟩
    · rw [rouletteFind, if_neg hlt]
      exact ⟨le_refl j, hj, fun h => absurd h hlt⟩

/-- Writing at the first free slot of a prefix-plus-holes array appends the
value and drops one hole. -/
theorem setGrowO_append {α : Type} (Q : List (Option α)) (R : ℕ)
    (v : Option α) :
    setGrowO (Q ++ List.replicate R none) Q.length v =
      Q ++ [v] ++ List.replicate (R - 1) none := by
  cases R with
  | zero =>
    rw [setGrowO]
    simp
  | succ r =>
    rw [setGrowO, if_pos (by simp)]
    rw [List.set_append]
    simp [List.replicate_succ]

/-- The deterministic copy loop for one individual: writing `w` copies at
the successive free slots appends `w` present values. -/
theorem setGrow_run (x : Individual) :
    ∀ (w : ℕ) (Q : List (Option Individual)) (R : ℕ),
      (List.range w).foldl (fun acc t => setGrow acc (Q.length + t) x)
        (Q ++ List.replicate R none) =
        Q ++ List.replicate w (some x) ++ List.replicate (R - w) none := by
  intro w
  induction w with
  | zero => intro Q R; simp
  | succ w ih =>
    intro Q R
    rw [List.range_succ, List.foldl_append, ih]
    show setGrow (Q ++ List.replicate w (some x) ++
      List.replicate (R - w) none) (Q.length + w) x = _
    have hlen : Q.length + w =
        (Q ++ List.replicate w (some x)).length := by simp
    rw [setGrow, hlen,
      setGrowO_append (Q ++ List.replicate w (some x)) (R - w) (some x)]
    rw [List.replicate_succ' w (some x)]
    have : R - w - 1 = R - (w + 1) := by omega
    rw [this]
    simp

/-- The whole deterministic pass of the remainder variants: starting from a
filled prefix `Q` followed by `R` holes, it appends one present copy per
unit of `⌊max 0 fitness⌋` for each individual in order, consuming the
holes, and advances the write counter accordingly. -/
theorem fillCopies_eq (inds : List Individual) :
    ∀ (Q : List (Option Individual)) (R : ℕ),
      fillCopies (Q ++ List.replicate R none) Q.length inds =
        (Q ++ (wholeCopies inds).map some ++
          List.replicate (R - (wholeCopies inds).length) none,
         Q.length + (wholeCopies inds).length) := by
  induction inds with
  | nil => intro Q R; simp [fillCopies, wholeCopies]
  | cons ind rest ih =>
    intro Q R
    simp only [fillCopies]
    rw [setGrow_run ind ((⌊jsMax0 ind.fitness⌋).toNat) Q R]
    have hQ' : Q.length + (⌊jsMax0 ind.fitness⌋).toNat =
        (Q ++ List.replicate (⌊jsMax0 ind.fitness⌋).toNat (some ind)).length
      := by simp
    rw [hQ',
      ih (Q ++ List.replicate (⌊jsMax0 ind.fitness⌋).toNat (some ind))
        (R - (⌊jsMax0 ind.fitness⌋).toNat)]
    have hwc : wholeCopies (ind :: rest) =
        List.replicate (⌊jsMax0 ind.fitness⌋).toNat ind ++
          wholeCopies rest := by
      rw [wholeCopies, List.flatMap_cons]
      rfl
    rw [hwc, Prod.mk.injEq]
    refine ⟨?_, ?_⟩
    · simp [Nat.sub_sub, List.append_assoc]
    · simp
      omega

/-- The roulette spin loop under `with_replacement` (no weight updates)
writes, into the successive free slots, only present elements of the
population: starting from a filled prefix `Q` followed by `R` holes it
appends exactly `cnt` present values drawn from `inds`, consuming one
random draw each, provided the draws lie in `(0,1)`, the weights are
nonnegative and sum to at least the positive roulette size. -/
theorem spinLoop_fill_with (inds : List Individual) (g : RandTape)
    (hg : ∀ m, 0 < g m ∧ g m < 1) :
    ∀ (cnt : ℕ) (Q : List (Option Individual)) (R : ℕ) (fv : List ℚ)
      (rS : ℚ) (k : ℕ),
      (∀ x ∈ fv, 0 ≤ x) → fv.length = inds.length → rS ≤ fv.sum →
      0 < rS →
      ∃ news : List (Option Individual),
        news.length = cnt ∧
        (∀ x ∈ news, ∃ y ∈ inds, x = some y) ∧
        spinLoop inds g false cnt (Q ++ List.replicate R none) fv rS
          Q.length k = (Q ++ news ++ List.replicate (R - cnt) none,
            k + cnt) := by
  intro cnt
  induction cnt with
  | zero =>
    intro Q R fv rS k _ _ _ _
    exact ⟨[], rfl, by simp, by simp [spinLoop]⟩
  | succ cnt ih =>
    intro Q R fv rS k hfv hlen hsum hrS
    have hpos0 : 0 < g k * rS := mul_pos (hg k).1 hrS
    have hposlt : g k * rS < rS := by
      have h1 := mul_lt_mul_of_pos_right (hg k).2 hrS
      rw [one_mul] at h1
      exact h1
    have hposle : g k * rS ≤ fv.sum := le_of_lt (lt_of_lt_of_le hposlt hsum)
    have hbounds := rouletteFind_bounds fv (g k * rS) hposle
      (fv.length + 1) 0 0 (by omega) (by simp [cum]) (by omega)
    set m := rouletteFind fv (g k * rS) 0 0 with hmdef
    have hm1 : 1 ≤ m := hbounds.2.2 hpos0
    have hmlen : m ≤ fv.length := hbounds.2.1
    have hmind : m - 1 < inds.length := by omega
    have helem : getAt inds ((m : ℤ) - 1) = some inds[m - 1] := by
      have ht : ((m : ℤ) - 1).toNat = m - 1 := by omega
      rw [getAt, if_neg (by omega), ht, List.get?_eq_getElem?,
        List.getElem?_eq_getElem hmind]
    obtain ⟨news', hn1, hn2, hn3⟩ :=
      ih (Q ++ [some inds[m - 1]]) (R - 1) fv rS (k + 1) hfv hlen hsum hrS
    refine ⟨some inds[m - 1] :: news', by simp [hn1], ?_, ?_⟩
    · intro x hx
      rcases List.mem_cons.mp hx with rfl | h2
      · exact ⟨inds[m - 1], List.getElem_mem hmind, rfl⟩
      · exact hn2 x h2
    · simp only [spinLoop]
      rw [← hmdef, helem, setGrowO_append Q R (some inds[m - 1])]
      have hQl : Q.length + 1 = (Q ++ [some inds[m - 1]]).length := by simp
      rw [hQl]
      simp only [Bool.false_eq_true, if_false, ite_false]
      rw [hn3, Prod.mk.injEq]
      refine ⟨?_, by omega⟩
      have hr : R - 1 - cnt = R - (cnt + 1) := by omega
      rw [hr]
      simp [List.append_assoc]

/-- The roulette spin loop under `without_replacement`: as
`spinLoop_fill_with`, with the roulette size shrinking by one per draw and
the weight at the returned index decremented (floored at 0); the spins stay
valid as long as the remaining number of draws does not exceed the current
roulette size. -/
theorem spinLoop_fill_wo (inds : List Individual) (g : RandTape)
    (hg : ∀ m, 0 < g m ∧ g m < 1) :
    ∀ (cnt : ℕ) (Q : List (Option Individual)) (R : ℕ) (fv : List ℚ)
      (rS : ℚ) (k : ℕ),
      (∀ x ∈ fv, 0 ≤ x) → fv.length = inds.length → rS ≤ fv.sum →
      (cnt : ℚ) ≤ rS →
      ∃ news : List (Option Individual),
        news.length = cnt ∧
        (∀ x ∈ news, ∃ y ∈ inds, x = some y) ∧
        spinLoop inds g true cnt (Q ++ List.replicate R none) fv rS
          Q.length k = (Q ++ news ++ List.replicate (R - cnt) none,
            k + cnt) := by
  intro cnt
  induction cnt with
  | zero =>
    intro Q R fv rS k _ _ _ _
    exact ⟨[], rfl, by simp, by simp [spinLoop]⟩
  | succ cnt ih =>
    intro Q R fv rS k hfv hlen hsum hcnt
    have hrS : 0 < rS := by
      have h0 : (0 : ℚ) ≤ (cnt : ℚ) := Nat.cast_nonneg cnt
      push_cast at hcnt
      linarith
    have hpos0 : 0 < g k * rS := mul_pos (hg k).1 hrS
    have hposlt : g k * rS < rS := by
      have h1 := mul_lt_mul_of_pos_right (hg k).2 hrS
      rw [one_mul] at h1
      exact h1
    have hposle : g k * rS ≤ fv.sum := le_of_lt (lt_of_lt_of_le hposlt hsum)
    have hbounds := rouletteFind_bounds fv (g k * rS) hposle
      (fv.length + 1) 0 0 (by omega) (by simp [cum]) (by omega)
    set m := rouletteFind fv (g k * rS) 0 0 with hmdef
    have hm1 : 1 ≤ m := hbounds.2.2 hpos0
    have hmlen : m ≤ fv.length := hbounds.2.1
    have hmind : m - 1 < inds.length := by omega
    have helem : getAt inds ((m : ℤ) - 1) = some inds[m - 1] := by
      have ht : ((m : ℤ) - 1).toNat = m - 1 := by omega
      rw [getAt, if_neg (by omega), ht, List.get?_eq_getElem?,
        List.getElem?_eq_getElem hmind]
    have hsetnn : ∀ x ∈ fv.set m (jsMax0 (fv.getD m 0 - 1)), 0 ≤ x := by
      intro x hx
      rcases List.mem_or_eq_of_mem_set hx with h1 | h2
      · exact hfv x h1
      · rw [h2, jsMax0]; exact le_max_left 0 _
    have hsetsum : rS - 1 ≤ (fv.set m (jsMax0 (fv.getD m 0 - 1))).sum := by
      rw [List.sum_set]
      by_cases hmfv : m < fv.length
      · have hdrop : fv.drop m = fv[m] :: fv.drop (m + 1) :=
          List.drop_eq_getElem_cons hmfv
        have hsplit := List.sum_take_add_sum_drop fv m
        rw [hdrop] at hsplit
        simp only [List.sum_cons] at hsplit
        have hgd : fv.getD m 0 = fv[m] := by
          rw [List.getD_eq_getElem?_getD, List.getElem?_eq_getElem hmfv]
          rfl
        rw [if_pos hmfv, hgd]
        have hmm : fv[m] - 1 ≤ jsMax0 (fv[m] - 1) := by rw [jsMax0]; exact le_max_right 0 _
        linarith
      · have htake : fv.take m = fv := List.take_of_length_le (by omega)
        have hdrop : fv.drop (m + 1) = [] :=
          List.drop_eq_nil_of_le (by omega)
        rw [if_neg hmfv, htake, hdrop]
        simp
        linarith
    have hcnt' : (cnt : ℚ) ≤ rS - 1 := by
      push_cast at hcnt
      linarith
    obtain ⟨news', hn1, hn2, hn3⟩ :=
      ih (Q ++ [some inds[m - 1]]) (R - 1)
        (fv.set m (jsMax0 (fv.getD m 0 - 1))) (rS - 1) (k + 1) hsetnn
        (by simp [hlen]) hsetsum hcnt'
    refine ⟨some inds[m - 1] :: news', by simp [hn1], ?_, ?_⟩
    · intro x hx
      rcases List.mem_cons.mp hx with rfl | h2
      · exact ⟨inds[m - 1], List.getElem_mem hmind, rfl⟩
      · exact hn2 x h2
    · simp only [spinLoop]
      rw [← hmdef, helem, setGrowO_append Q R (some inds[m - 1])]
      have hQl : Q.length + 1 = (Q ++ [some inds[m - 1]]).length := by simp
      rw [hQl]
      simp only [if_true, ite_true]
      rw [hn3, Prod.mk.injEq]
      refine ⟨?_, by omega⟩
      have hr : R - 1 - cnt = R - (cnt + 1) := by omega
      rw [hr]
      simp [List.append_assoc]

/-- A floor-indexed read with a draw in `(0,1)` on a non-empty array always
hits a present element. -/
theorem getAt_floor_mem (inds : List Individual) (r : ℚ) (h0 : 0 < r)
    (h1 : r < 1) (hlen : 0 < inds.length) :
    ∃ y ∈ inds, getAt inds (jsFloor (r * inds.length)) = some y := by
  have hcast : (0 : ℚ) < (inds.length : ℚ) := by exact_mod_cast hlen
  have hnn : (0 : ℤ) ≤ ⌊r * (inds.length : ℚ)⌋ := by
    apply Int.le_floor.mpr
    push_cast
    exact mul_nonneg h0.le (le_of_lt hcast)
  have hlt : ⌊r * (inds.length : ℚ)⌋ < (inds.length : ℤ) := by
    apply Int.floor_lt.mpr
    push_cast
    exact mul_lt_of_lt_one_left hcast h1
  have hidx : (⌊r * (inds.length : ℚ)⌋).toNat < inds.length := by omega
  refine ⟨inds[(⌊r * (inds.length : ℚ)⌋).toNat], List.getElem_mem hidx, ?_⟩
  rw [jsFloor, getAt, if_neg (by omega), List.get?_eq_getElem?,
    List.getElem?_eq_getElem hidx]

/-- `find?` over `List.range` returns the least index satisfying the
predicate. -/
theorem find_range_least (P : ℕ → Bool) (len i : ℕ) (hi : i < len)
    (hP : P i = true) (hmin : ∀ m, m < i → P m = false) :
    (List.range len).find? P = some i := by
  induction len with
  | zero => omega
  | succ len ih =>
    rw [List.range_succ, List.find?_append]
    rcases Nat.lt_or_ge i len with h | h
    · rw [ih h]
      rfl
    · have hieq : i = len := by omega
      have hnone : (List.range len).find? P = none := by
        rw [List.find?_eq_none]
        intro x hx
        rw [List.mem_range] at hx
        rw [hmin x (by omega)]
        simp
      rw [hnone, hieq]
      simp [List.find?_cons, hieq ▸ hP]

/-- The unique owner of a pointer in `(cum (m-1), cum m]` is `m - 1`. -/
theorem susOwner_eq (ws : List ℚ) (hws : ∀ x ∈ ws, 0 ≤ x) (p : ℚ) (m : ℕ)
    (hm1 : 1 ≤ m) (hmlen : m ≤ ws.length) (hl : cum ws (m - 1) < p)
    (hh : p ≤ cum ws m) : susOwner ws p = some (m - 1) := by
  have hm : m - 1 + 1 = m := by omega
  apply find_range_least _ _ _ (by omega)
  · rw [hm]
    simp [hl, hh]
  · intro t ht
    have hB : ¬(p ≤ cum ws (t + 1)) :=
      not_le.mpr (lt_of_le_of_lt (cum_mono ws hws (by omega)) hl)
    simp [hB]

/-- The persistent cumulative walk of the `univerzal` branch, from a
consistent state, lands exactly at the least index whose cumulative weight
reaches the pointer. -/
theorem susWalk_eq (ws : List ℚ) (p : ℚ)
    (hp0 : 0 < p) (hple : p ≤ ws.sum) :
    ∀ (d j : ℕ) (f : ℚ), ws.length + 1 - j ≤ d → f = cum ws j →
      j ≤ ws.length → (j = 0 ∨ cum ws (j - 1) < p) →
      ∃ m, susWalk ws p (some f) j = (some (cum ws m), m) ∧ 1 ≤ m ∧
        m ≤ ws.length ∧ cum ws (m - 1) < p ∧ p ≤ cum ws m := by
  intro d
  induction d with
  | zero =>
    intro j f hd hf hj hinv
    omega
  | succ d ih =>
    intro j f hd hf hj hinv
    by_cases hlt : f < p
    · have hjlen : j < ws.length := by
        rcases Nat.lt_or_ge j ws.length with h | h
        · exact h
        · exfalso
          have hjeq : j = ws.length := le_antisymm hj h
          rw [hf, hjeq, cum_length] at hlt
          linarith
      have hget : ws.get? j = some ws[j] := by
        rw [List.get?_eq_getElem?, List.getElem?_eq_getElem hjlen]
      have hunf : susWalk ws p (some f) j =
          susWalk ws p (some (f + ws[j])) (j + 1) := by
        conv_lhs => rw [susWalk]
        rw [if_pos hlt, hget]
      have hfd : ws.getD j 0 = ws[j] := by
        rw [List.getD_eq_getElem?_getD, List.getElem?_eq_getElem hjlen]
        rfl
      have hnext : f + ws[j] = cum ws (j + 1) := by
        rw [cum_succ_getD, hfd, hf]
      obtain ⟨m, hm⟩ := ih (j + 1) (f + ws[j]) (by omega) hnext (by omega)
        (Or.inr (by simpa using hf ▸ hlt))
      exact ⟨m, by rw [hunf]; exact hm.1, hm.2⟩
    · refine ⟨j, ?_, ?_, hj, ?_, ?_⟩
      · conv_lhs => rw [susWalk]
        rw [if_neg hlt, hf]
      · by_contra hcon
        have hj0 : j = 0 := by omega
        rw [hj0] at hf
        simp [cum] at hf
        rw [hf] at hlt
        exact hlt hp0
      · rcases hinv with h0 | h1
        · exfalso
          rw [h0] at hf
          simp [cum] at hf
          rw [hf] at hlt
          exact hlt hp0
        · exact h1
      · rw [← hf]
        exact le_of_not_lt hlt

/-- Rebuilding a list of already-clamped weights through `Object.keys`
indexing is the identity. -/
theorem range_map_jsMax0 :
    ∀ (l : List ℚ), (∀ x ∈ l, jsMax0 x = x) →
      (List.range l.length).map (fun t => jsMax0 (l.getD t 0)) = l := by
  intro l
  induction l with
  | nil => intro _; simp
  | cons x rest ih =>
    intro hid
    rw [List.length_cons, List.range_succ_eq_map, List.map_cons,
      List.map_map]
    have hhead : jsMax0 ((x :: rest).getD 0 0) = x := by
      rw [List.getD_cons_zero]
      exact hid x (List.mem_cons_self x rest)
    have htail : (List.range rest.length).map
        ((fun t => jsMax0 ((x :: rest).getD t 0)) ∘ Nat.succ) =
        (List.range rest.length).map (fun t => jsMax0 (rest.getD t 0)) := by
      apply List.map_congr_left
      intro t _
      simp [List.getD_cons_succ]
    rw [hhead, htail, ih (fun y hy => hid y (List.mem_cons_of_mem x hy))]

/-- The pointer loop of the `univerzal` branch computes, pointer by
pointer, exactly the owner mapping of stochastic universal sampling, as
long as the pointers are positive, increasing by a positive step, and do
not exceed the total weight. -/
theorem susLoop_spec (inds : List Individual) (ws : List ℚ)
    (hws : ∀ x ∈ ws, 0 ≤ x) (hlen : ws.length = inds.length)
    (step : ℚ) (hstep : 0 < step) :
    ∀ (cnt : ℕ) (pos f : ℚ) (j : ℕ),
      f = cum ws j → j ≤ ws.length → (j = 0 ∨ cum ws (j - 1) < pos) →
      0 < pos → pos + ((cnt : ℚ) - 1) * step ≤ ws.sum →
      susLoop inds (List.range inds.length) ws step cnt pos (some f) j =
        (List.range cnt).map (fun (t : ℕ) =>
          (susOwner ws (pos + (t : ℚ) * step)).bind (fun i => inds.get? i))
        := by
  intro cnt
  induction cnt with
  | zero => intro pos f j _ _ _ _ _; simp [susLoop]
  | succ cnt ih =>
    intro pos f j hf hj hinv hpos hlast
    have hcnt0 : (0 : ℚ) ≤ (cnt : ℚ) * step :=
      mul_nonneg (Nat.cast_nonneg cnt) hstep.le
    have hple : pos ≤ ws.sum := by
      push_cast at hlast
      linarith
    obtain ⟨m, hmeq, hm1, hmlen, hml, hmh⟩ :=
      susWalk_eq ws pos hpos hple (ws.length + 1) j f (by omega) hf hj hinv
    have hmow : susOwner ws pos = some (m - 1) :=
      susOwner_eq ws hws pos m hm1 hmlen hml hmh
    have hkey : getAt (List.range inds.length) ((m : ℤ) - 1) =
        some (m - 1) := by
      have hmi : m - 1 < inds.length := by omega
      have ht : ((m : ℤ) - 1).toNat = m - 1 := by omega
      rw [getAt, if_neg (by omega), ht, List.get?_eq_getElem?,
        List.getElem?_eq_getElem (by simpa using hmi)]
      rw [List.getElem_range]
    simp only [susLoop]
    rw [hmeq]
    have htail := ih (pos + step) (cum ws m) m rfl hmlen
      (Or.inr (by linarith)) (by linarith)
      (by
        have he : pos + step + ((cnt : ℚ) - 1) * step =
            pos + ((((cnt + 1 : ℕ)) : ℚ) - 1) * step := by push_cast; ring
        rw [he]
        exact hlast)
    rw [htail]
    rw [List.range_succ_eq_map, List.map_cons, List.map_map]
    have hhead : (getAt (List.range inds.length) ((m : ℤ) - 1)).bind
        (fun t => inds.get? t) =
        (susOwner ws (pos + ((0 : ℕ) : ℚ) * step)).bind
          (fun i => inds.get? i) := by
      have h0 : pos + ((0 : ℕ) : ℚ) * step = pos := by push_cast; ring
      rw [hkey, h0, hmow]
    rw [hhead]
    have htail2 : (List.range cnt).map
        (fun (t : ℕ) => (susOwner ws (pos + step + (t : ℚ) * step)).bind
          (fun i => inds.get? i)) =
        (List.range cnt).map
          ((fun (t : ℕ) => (susOwner ws (pos + (t : ℚ) * step)).bind
            (fun i => inds.get? i)) ∘ Nat.succ) := by
      apply List.map_congr_left
      intro t _
      have he : pos + step + (t : ℚ) * step =
          pos + ((Nat.succ t : ℕ) : ℚ) * step := by push_cast; ring
      simp only [Function.comp]
      rw [he]
    rw [htail2]

/-- For a pointer in `(0, total]` over nonnegative weights the owner search
always succeeds, with an in-range index. -/
theorem susOwner_exists (ws : List ℚ) (hws : ∀ x ∈ ws, 0 ≤ x) (p : ℚ)
    (hp0 : 0 < p) (hple : p ≤ ws.sum) :
    ∃ m, susOwner ws p = some m ∧ m < ws.length := by
  obtain ⟨m, hmeq, hm1, hmlen, hml, hmh⟩ :=
    susWalk_eq ws p hp0 hple (ws.length + 1) 0 0 (by omega) (by simp [cum])
      (by omega) (Or.inl rfl)
  exact ⟨m - 1, susOwner_eq ws hws p m hm1 hmlen hml hmh, by omega⟩

set_option maxHeartbeats 1600000 in
/-- For every population with positive total clamped fitness and `0 < n`,
the `univerzal` roulette branch computes exactly the stochastic universal
sampling of the spec-side model `susSpecSelect`, consuming one draw. -/
theorem getParents_univerzal_eq (inds : List Individual) (n : ℕ)
    (g : RandTape) (k : ℕ) (hn : 0 < n)
    (htot : 0 < (inds.map (fun ind => jsMax0 ind.fitness)).sum)
    (hr0 : 0 < g k) (hr1 : g k < 1) :
    getParents inds ("roulette") n
      { rouletteMethod := some ("univerzal") } g k =
      (susSpecSelect inds n (g k), k + 1) := by
  have hUniv : getParents inds ("roulette") n
      { rouletteMethod := some ("univerzal") } g k =
      if (inds.map (fun ind => jsMax0 ind.fitness)).sum = 0 then ([], k)
      else
        (susLoop inds (List.range inds.length)
          ((List.range inds.length).map (fun t => jsMax0
            ((inds.map (fun ind => jsMax0 ind.fitness)).getD t 0)))
          ((inds.map (fun ind => jsMax0 ind.fitness)).sum / n) n
          (g k * ((inds.map (fun ind => jsMax0 ind.fitness)).sum / n))
          (some 0) 0, k + 1) := rfl
  have hid : ∀ x ∈ inds.map (fun ind => jsMax0 ind.fitness),
      jsMax0 x = x := by
    intro x hx
    obtain ⟨y, _, rfl⟩ := List.mem_map.mp hx
    rw [jsMax0, jsMax0]
    exact max_eq_right (le_max_left 0 _)
  have hws0 : ∀ x ∈ inds.map (fun ind => jsMax0 ind.fitness), 0 ≤ x := by
    intro x hx
    obtain ⟨y, _, rfl⟩ := List.mem_map.mp hx
    rw [jsMax0]
    exact le_max_left 0 _
  have hlenmap : (inds.map (fun ind => jsMax0 ind.fitness)).length =
      inds.length := List.length_map inds _
  have hws : (List.range inds.length).map (fun t => jsMax0
      ((inds.map (fun ind => jsMax0 ind.fitness)).getD t 0)) =
      inds.map (fun ind => jsMax0 ind.fitness) := by
    have := range_map_jsMax0 (inds.map (fun ind => jsMax0 ind.fitness)) hid
    rw [hlenmap] at this
    exact this
  have hncast : (0 : ℚ) < (n : ℚ) := by exact_mod_cast hn
  have hstep : 0 < (inds.map (fun ind => jsMax0 ind.fitness)).sum / n :=
    div_pos htot hncast
  have hstart : 0 <
      g k * ((inds.map (fun ind => jsMax0 ind.fitness)).sum / n) :=
    mul_pos hr0 hstep
  have hlast : g k * ((inds.map (fun ind => jsMax0 ind.fitness)).sum / n) +
      ((n : ℚ) - 1) *
        ((inds.map (fun ind => jsMax0 ind.fitness)).sum / n) ≤
      (inds.map (fun ind => jsMax0 ind.fitness)).sum := by
    have hsum : (n : ℚ) *
        ((inds.map (fun ind => jsMax0 ind.fitness)).sum / n) =
        (inds.map (fun ind => jsMax0 ind.fitness)).sum := by
      field_simp
    have hcomb : g k * ((inds.map (fun ind => jsMax0 ind.fitness)).sum / n)
        + ((n : ℚ) - 1) *
          ((inds.map (fun ind => jsMax0 ind.fitness)).sum / n) =
        (g k + (n : ℚ) - 1) *
          ((inds.map (fun ind => jsMax0 ind.fitness)).sum / n) := by ring
    rw [hcomb]
    have hle : (g k + (n : ℚ) - 1) *
        ((inds.map (fun ind => jsMax0 ind.fitness)).sum / n) ≤
        (n : ℚ) * ((inds.map (fun ind => jsMax0 ind.fitness)).sum / n) :=
      mul_le_mul_of_nonneg_right (by linarith) hstep.le
    linarith [hle, hsum]
  have hloop := susLoop_spec inds
    (inds.map (fun ind => jsMax0 ind.fitness)) hws0 hlenmap
    ((inds.map (fun ind => jsMax0 ind.fitness)).sum / n) hstep n
    (g k * ((inds.map (fun ind => jsMax0 ind.fitness)).sum / n)) 0 0
    (by simp [cum]) (by omega) (Or.inl rfl) hstart hlast
  rw [hUniv, if_neg (ne_of_gt htot), hws, hloop]
  rfl

/-- Claim C3, amended (spelling corrected from the spec to the string the
code recognizes): for every population with positive total clamped fitness
and `0 < n`, `getParents("roulette", n)` with
`options.rouletteMethod = "univerzal"` performs stochastic universal
sampling — it computes `pointerStep = rouletteSize / n`, consumes exactly
one uniform draw as the start offset in `[0, pointerStep)`, and maps the
`n` equally spaced pointers to the individuals whose cumulative-weight
intervals contain them, as modelled by `susSpecSelect`.  The spelling
`"universal"` is not recognized and falls into the `with_replacement`
default branch, as the counterexample shows. -/
theorem getParents_univerzal_is_SUS (inds : List Individual) (n : ℕ)
    (g : RandTape) (k : ℕ) (hn : 0 < n)
    (htot : 0 < (inds.map (fun ind => jsMax0 ind.fitness)).sum)
    (hr0 : 0 < g k) (hr1 : g k < 1) :
    getParents inds ("roulette") n
      { rouletteMethod := some ("univerzal") } g k =
      (susSpecSelect inds n (g k), k + 1) :=
  getParents_univerzal_eq inds n g k hn htot hr0 hr1

/-- Claim C3, witness: the amended theorem applied to the two-individual
population of fitness 1 and 1, `n = 2`, and the constant tape `9/10`. -/
theorem getParents_univerzal_is_SUS_witness :
    (0 < ([indA, indB].map (fun ind => jsMax0 ind.fitness)).sum ∧
      (0 : ℚ) < tape910 0 ∧ tape910 0 < 1) ∧
    getParents [indA, indB] ("roulette") 2
      { rouletteMethod := some ("univerzal") } tape910 0 =
      (susSpecSelect [indA, indB] 2 (tape910 0), 0 + 1) := by
  refine ⟨⟨by norm_num [indA, indB, jsMax0],
    by norm_num [tape910], by norm_num [tape910]⟩, ?_⟩
  exact getParents_univerzal_is_SUS [indA, indB] 2 tape910 0 (by norm_num)
    (by norm_num [indA, indB, jsMax0]) (by norm_num [tape910])
    (by norm_num [tape910])

set_option maxHeartbeats 800000 in
/-- Claim C4, amended: for every non-empty population and draws in
`(0,1)`: `getParents("random", n)` returns exactly `n` elements of the
population; `getParents("roulette", n)` under `with_replacement` returns
exactly `n` elements of the population when the clamped-fitness total is
positive and the empty result when the total is 0; under
`without_replacement` it does so provided moreover `n` does not exceed the
clamped total; the remainder variants (with and without replacement) emit
the deterministic `⌊max(0, fitness)⌋` copies and are therefore not bounded
by `n` — when the fractional-part total is 0 the result of either variant
is exactly the copies array grown to length `n` with holes, which holds
more than `n` elements when the copies overflow and undefined holes when
they number fewer than `n`; the spelling `universal` is not recognized and
behaves exactly as `with_replacement`; and the `univerzal` method returns
the empty result on total 0 and exactly `n` elements of the population on
a positive total. -/
theorem getParents_sampling (inds : List Individual) (n : ℕ)
    (g : RandTape) (k : ℕ) (hne : inds ≠ [])
    (hg : ∀ m, 0 < g m ∧ g m < 1) :
    ((getParents inds ("random") n {} g k).1.length = n ∧
      ∀ x ∈ (getParents inds ("random") n {} g k).1,
        ∃ y ∈ inds, x = some y) ∧
    (((inds.map (fun ind => jsMax0 ind.fitness)).sum = 0 →
        getParents inds ("roulette") n
          { rouletteMethod := some ("with_replacement") } g k = ([], k)) ∧
      (0 < (inds.map (fun ind => jsMax0 ind.fitness)).sum →
        (getParents inds ("roulette") n
          { rouletteMethod := some ("with_replacement") } g k).1.length = n ∧
        ∀ x ∈ (getParents inds ("roulette") n
          { rouletteMethod := some ("with_replacement") } g k).1,
          ∃ y ∈ inds, x = some y)) ∧
    ((0 < (inds.map (fun ind => jsMax0 ind.fitness)).sum →
      (n : ℚ) ≤ (inds.map (fun ind => jsMax0 ind.fitness)).sum →
        (getParents inds ("roulette") n
          { rouletteMethod := some ("without_replacement") } g k).1.length
          = n ∧
        ∀ x ∈ (getParents inds ("roulette") n
          { rouletteMethod := some ("without_replacement") } g k).1,
          ∃ y ∈ inds, x = some y)) ∧
    ((inds.map (fun b => fracPart (jsMax0 b.fitness))).sum = 0 →
      getParents inds ("roulette") n
          { rouletteMethod := some ("remainder_with_replacement") } g k =
        ((wholeCopies inds).map some ++
          List.replicate (n - (wholeCopies inds).length) none, k) ∧
      getParents inds ("roulette") n
          { rouletteMethod := some ("remainder_without_replacement") } g k =
        ((wholeCopies inds).map some ++
          List.replicate (n - (wholeCopies inds).length) none, k)) ∧
    (getParents inds ("roulette") n
        { rouletteMethod := some ("universal") } g k =
      getParents inds ("roulette") n
        { rouletteMethod := some ("with_replacement") } g k) ∧
    (((inds.map (fun ind => jsMax0 ind.fitness)).sum = 0 →
        getParents inds ("roulette") n
          { rouletteMethod := some ("univerzal") } g k = ([], k)) ∧
      (0 < (inds.map (fun ind => jsMax0 ind.fitness)).sum →
        (getParents inds ("roulette") n
          { rouletteMethod := some ("univerzal") } g k).1.length = n ∧
        ∀ x ∈ (getParents inds ("roulette") n
          { rouletteMethod := some ("univerzal") } g k).1,
          ∃ y ∈ inds, x = some y)) := by
  have hlen0 : 0 < inds.length := List.length_pos.mpr hne
  have hfv0 : ∀ x ∈ inds.map (fun ind => jsMax0 ind.fitness), 0 ≤ x := by
    intro x hx
    obtain ⟨y, _, rfl⟩ := List.mem_map.mp hx
    rw [jsMax0]
    exact le_max_left 0 _
  have hmaplen : (inds.map (fun ind => jsMax0 ind.fitness)).length =
      inds.length := List.length_map inds _
  have hWith : getParents inds ("roulette") n
      { rouletteMethod := some ("with_replacement") } g k =
      if (inds.map (fun ind => jsMax0 ind.fitness)).sum = 0 then ([], k)
      else spinLoop inds g false n (List.replicate n none)
        (inds.map (fun ind => jsMax0 ind.fitness))
        ((inds.map (fun ind => jsMax0 ind.fitness)).sum) 0 k := rfl
  have hWo : getParents inds ("roulette") n
      { rouletteMethod := some ("without_replacement") } g k =
      if (inds.map (fun ind => jsMax0 ind.fitness)).sum = 0 then ([], k)
      else spinLoop inds g true n (List.replicate n none)
        (inds.map (fun ind => jsMax0 ind.fitness))
        ((inds.map (fun ind => jsMax0 ind.fitness)).sum) 0 k := rfl
  have hRem : getParents inds ("roulette") n
      { rouletteMethod := some ("remainder_with_replacement") } g k =
      if (inds.map (fun b => fracPart (jsMax0 b.fitness))).sum = 0 then
        ((fillCopies (List.replicate n none) 0 inds).1, k)
      else spinLoop inds g false
        (n - (fillCopies (List.replicate n none) 0 inds).2)
        (fillCopies (List.replicate n none) 0 inds).1
        ((inds.map (fun ind => jsMax0 ind.fitness)).map
          (fun x => fracPart (jsMax0 x)))
        ((inds.map (fun b => fracPart (jsMax0 b.fitness))).sum)
        (fillCopies (List.replicate n none) 0 inds).2 k := rfl
  have hRemWo : getParents inds ("roulette") n
      { rouletteMethod := some ("remainder_without_replacement") } g k =
      if (inds.map (fun b => fracPart (jsMax0 b.fitness))).sum = 0 then
        ((fillCopies (List.replicate n none) 0 inds).1, k)
      else spinLoop inds g true
        (n - (fillCopies (List.replicate n none) 0 inds).2)
        (fillCopies (List.replicate n none) 0 inds).1
        ((inds.map (fun ind => jsMax0 ind.fitness)).map
          (fun x => fracPart (jsMax0 x)))
        ((inds.map (fun b => fracPart (jsMax0 b.fitness))).sum)
        (fillCopies (List.replicate n none) 0 inds).2 k := rfl
  have hUnivZ : getParents inds ("roulette") n
      { rouletteMethod := some ("univerzal") } g k =
      if (inds.map (fun ind => jsMax0 ind.fitness)).sum = 0 then ([], k)
      else
        (susLoop inds (List.range inds.length)
          ((List.range inds.length).map (fun t => jsMax0
            ((inds.map (fun ind => jsMax0 ind.fitness)).getD t 0)))
          ((inds.map (fun ind => jsMax0 ind.fitness)).sum / n) n
          (g k * ((inds.map (fun ind => jsMax0 ind.fitness)).sum / n))
          (some 0) 0, k + 1) := rfl
  refine ⟨⟨?_, ?_⟩, ⟨?_, ?_⟩, ?_, ?_, rfl, ?_, ?_⟩
  · simp [getParents, getRandomParents]
  · intro x hx
    simp only [getParents, getRandomParents] at hx
    obtain ⟨i, _, hxe⟩ := List.mem_map.mp hx
    obtain ⟨y, hy, he⟩ :=
      getAt_floor_mem inds (g (k + i)) (hg (k + i)).1 (hg (k + i)).2 hlen0
    exact ⟨y, hy, by rw [← hxe, he]⟩
  · intro hS
    rw [hWith, if_pos hS]
  · intro hS
    obtain ⟨news, hn1, hn2, hn3⟩ := spinLoop_fill_with inds g hg n [] n
      _ _ k hfv0 hmaplen (le_refl _) hS
    simp only [List.nil_append, List.length_nil, Nat.sub_self,
      List.replicate_zero, List.append_nil] at hn3
    rw [hWith, if_neg (ne_of_gt hS), hn3]
    exact ⟨hn1, hn2⟩
  · intro hS hn
    obtain ⟨news, hn1, hn2, hn3⟩ := spinLoop_fill_wo inds g hg n [] n
      _ _ k hfv0 hmaplen (le_refl _) hn
    simp only [List.nil_append, List.length_nil, Nat.sub_self,
      List.replicate_zero, List.append_nil] at hn3
    rw [hWo, if_neg (ne_of_gt hS), hn3]
    exact ⟨hn1, hn2⟩
  · intro hF
    have hfc := fillCopies_eq inds [] n
    simp only [List.nil_append, List.length_nil] at hfc
    refine ⟨?_, ?_⟩
    · rw [hRem, if_pos hF, hfc]
    · rw [hRemWo, if_pos hF, hfc]
  · intro hS
    rw [hUnivZ, if_pos hS]
  · intro hS
    rcases Nat.eq_zero_or_pos n with hn0 | hn
    · subst hn0
      have h0 : getParents inds ("roulette") 0
          { rouletteMethod := some ("univerzal") } g k =
          if (inds.map (fun ind => jsMax0 ind.fitness)).sum = 0 then ([], k)
          else ([], k + 1) := rfl
      rw [h0, if_neg (ne_of_gt hS)]
      exact ⟨rfl, fun x hx => absurd hx (List.not_mem_nil x)⟩
    · have heq := getParents_univerzal_eq inds n g k hn hS (hg k).1 (hg k).2
      rw [heq]
      refine ⟨by simp [susSpecSelect], ?_⟩
      intro x hx
      simp only [susSpecSelect, List.mem_map, List.mem_range] at hx
      obtain ⟨t, ht, hxe⟩ := hx
      subst hxe
      have hncast : (0 : ℚ) < (n : ℚ) := by exact_mod_cast hn
      have hstep : 0 < (inds.map (fun x => jsMax0 x.fitness)).sum / n :=
        div_pos hS hncast
      have hp0 : 0 < g k *
            ((inds.map (fun x => jsMax0 x.fitness)).sum / n) +
          (t : ℚ) * ((inds.map (fun x => jsMax0 x.fitness)).sum / n) := by
        have h1 : 0 < g k *
            ((inds.map (fun x => jsMax0 x.fitness)).sum / n) :=
          mul_pos (hg k).1 hstep
        have h2 : 0 ≤ (t : ℚ) *
            ((inds.map (fun x => jsMax0 x.fitness)).sum / n) :=
          mul_nonneg (Nat.cast_nonneg t) hstep.le
        linarith
      have hple : g k * ((inds.map (fun x => jsMax0 x.fitness)).sum / n) +
          (t : ℚ) * ((inds.map (fun x => jsMax0 x.fitness)).sum / n) ≤
          (inds.map (fun x => jsMax0 x.fitness)).sum := by
        have hsum : (n : ℚ) *
            ((inds.map (fun x => jsMax0 x.fitness)).sum / n) =
            (inds.map (fun x => jsMax0 x.fitness)).sum := by
          field_simp
        have htn : (t : ℚ) ≤ (n : ℚ) - 1 := by
          have hts : (t : ℚ) + 1 ≤ (n : ℚ) := by
            exact_mod_cast Nat.succ_le_of_lt ht
          linarith
        have hcomb : g k *
              ((inds.map (fun x => jsMax0 x.fitness)).sum / n) +
            (t : ℚ) * ((inds.map (fun x => jsMax0 x.fitness)).sum / n) =
            (g k + (t : ℚ)) *
              ((inds.map (fun x => jsMax0 x.fitness)).sum / n) := by ring
        rw [hcomb]
        have hle : (g k + (t : ℚ)) *
            ((inds.map (fun x => jsMax0 x.fitness)).sum / n) ≤
            (n : ℚ) * ((inds.map (fun x => jsMax0 x.fitness)).sum / n) :=
          mul_le_mul_of_nonneg_right (by linarith [(hg k).2]) hstep.le
        linarith [hle, hsum]
      obtain ⟨m, hmeq, hmlt⟩ := susOwner_exists _ hfv0 _ hp0 hple
      rw [hmeq]
      have hmlt2 : m < inds.length := by
        rwa [List.length_map] at hmlt
      have hmget : inds.get? m = some inds[m] := by
        rw [List.get?_eq_getElem?, List.getElem?_eq_getElem hmlt2]
      refine ⟨inds[m], List.get?_mem hmget, ?_⟩
      exact hmget

/-- Claim C4, witness: the amended theorem applied to the two-individual
population of fitness 1 and 1, `n = 2`, and the constant tape `1/2`. -/
theorem getParents_sampling_witness :
    (([indA, indB] : List Individual) ≠ [] ∧
      ∀ m : ℕ, 0 < tapeHalf m ∧ tapeHalf m < 1) ∧
    (((getParents [indA, indB] ("random") 2 {} tapeHalf 0).1.length = 2 ∧
      ∀ x ∈ (getParents [indA, indB] ("random") 2 {} tapeHalf 0).1,
        ∃ y ∈ [indA, indB], x = some y) ∧
    ((([indA, indB].map (fun ind => jsMax0 ind.fitness)).sum = 0 →
        getParents [indA, indB] ("roulette") 2
          { rouletteMethod := some ("with_replacement") } tapeHalf 0 =
          ([], 0)) ∧
      (0 < ([indA, indB].map (fun ind => jsMax0 ind.fitness)).sum →
        (getParents [indA, indB] ("roulette") 2
          { rouletteMethod := some ("with_replacement") } tapeHalf
          0).1.length = 2 ∧
        ∀ x ∈ (getParents [indA, indB] ("roulette") 2
          { rouletteMethod := some ("with_replacement") } tapeHalf 0).1,
          ∃ y ∈ [indA, indB], x = some y)) ∧
    ((0 < ([indA, indB].map (fun ind => jsMax0 ind.fitness)).sum →
      ((2 : ℕ) : ℚ) ≤ ([indA, indB].map (fun ind => jsMax0 ind.fitness)).sum →
        (getParents [indA, indB] ("roulette") 2
          { rouletteMethod := some ("without_replacement") } tapeHalf
          0).1.length = 2 ∧
        ∀ x ∈ (getParents [indA, indB] ("roulette") 2
          { rouletteMethod := some ("without_replacement") } tapeHalf 0).1,
          ∃ y ∈ [indA, indB], x = some y)) ∧
    (([indA, indB].map (fun b => fracPart (jsMax0 b.fitness))).sum = 0 →
      getParents [indA, indB] ("roulette") 2
          { rouletteMethod := some ("remainder_with_replacement") } tapeHalf
          0 =
        ((wholeCopies [indA, indB]).map some ++
          List.replicate (2 - (wholeCopies [indA, indB]).length) none,
          0) ∧
      getParents [indA, indB] ("roulette") 2
          { rouletteMethod := some ("remainder_without_replacement") }
          tapeHalf 0 =
        ((wholeCopies [indA, indB]).map some ++
          List.replicate (2 - (wholeCopies [indA, indB]).length) none,
          0)) ∧
    (getParents [indA, indB] ("roulette") 2
        { rouletteMethod := some ("universal") } tapeHalf 0 =
      getParents [indA, indB] ("roulette") 2
        { rouletteMethod := some ("with_replacement") } tapeHalf 0) ∧
    ((([indA, indB].map (fun ind => jsMax0 ind.fitness)).sum = 0 →
        getParents [indA, indB] ("roulette") 2
          { rouletteMethod := some ("univerzal") } tapeHalf 0 = ([], 0)) ∧
      (0 < ([indA, indB].map (fun ind => jsMax0 ind.fitness)).sum →
        (getParents [indA, indB] ("roulette") 2
          { rouletteMethod := some ("univerzal") } tapeHalf 0).1.length
          = 2 ∧
        ∀ x ∈ (getParents [indA, indB] ("roulette") 2
          { rouletteMethod := some ("univerzal") } tapeHalf 0).1,
          ∃ y ∈ [indA, indB], x = some y))) := by
  refine ⟨⟨by decide, fun m => ⟨by norm_num [tapeHalf],
    by norm_num [tapeHalf]⟩⟩, ?_⟩
  exact getParents_sampling [indA, indB] 2 tapeHalf 0 (by decide)
    (fun m => ⟨by norm_num [tapeHalf], by norm_num [tapeHalf]⟩)
